import Mathlib

/-!
Shallow embedding of `src/processor.py` (jakerains/configpdfprocessor).

Strings are modelled as `List Char`.  Python's whitespace-sensitive
operations (`str.strip`, `str.split()` with no separator) are modelled with
the predicate `isPySpace`, which lists the code points Python's `str.isspace`
accepts.  Python's `str.lower` is modelled on the ASCII range
(`Char.toLower`); every keyword in the classifier table is ASCII-lowercase,
so this matches the source behaviour on the inputs the claims quantify over.
-/

namespace ConfigPDF

/-- Code points for which Python's `str.isspace` returns `True`. -/
def isPySpace (c : Char) : Bool :=
  let n := c.toNat
  n = 32 || (9 ≤ n && n ≤ 13) || (28 ≤ n && n ≤ 31) || n = 133 || n = 160 ||
  n = 5760 || (8192 ≤ n && n ≤ 8202) || n = 8232 || n = 8233 || n = 8239 ||
  n = 8287 || n = 12288

/-- Model of Python `str.strip()`: drop leading and trailing whitespace. -/
def pyStrip (l : List Char) : List Char :=
  ((l.dropWhile isPySpace).reverse.dropWhile isPySpace).reverse

/-- Model of Python `str.lower()` (ASCII range). -/
def pyLower (l : List Char) : List Char := l.map Char.toLower

/-- Model of Python's substring test `needle in hay` on strings.
The empty needle is contained in every string, as in Python. -/
def listContains (needle : List Char) : List Char → Bool
  | [] => needle.isEmpty
  | c :: rest => needle.isPrefixOf (c :: rest) || listContains needle rest

/-! Text sanitization, `clean_text_for_pdf` (processor.py lines 32-66). -/

/-- Single quotation mark character (code point 39). -/
def sq : Char := Char.ofNat 39

/-- Double quotation mark character (code point 34). -/
def dq : Char := Char.ofNat 34

/-- Effective replacement table of `clean_text_for_pdf` (lines 35-54).
The Python dict literal spells 17 entries.  Several keys appear twice (a
literal symbol and its escape) and collapse with equal values; lines
40-41 both spell the ASCII identity entry mapping the double quotation
mark to itself; and lines 42-43 tokenize as a triple-quoted string (the
three leading apostrophes open it and the three on the next line close
it), producing one entry whose key is the fifteen-character string
`: "'",` followed by a line break and the eight-space indent, mapping to
a single quotation mark.  That leaves these twelve entries in
first-insertion order. -/
def replacements : List (List Char × List Char) :=
  [(['™'], "(TM)".toList),
   (['®'], "(R)".toList),
   (['©'], "(C)".toList),
   (['–'], "-".toList),
   ([dq], [dq]),
   ([':', ' ', dq, sq, dq, ',', '\n',
     ' ', ' ', ' ', ' ', ' ', ' ', ' ', ' '], [sq]),
   (['…'], "...".toList),
   (['—'], "--".toList),
   (['‘'], [sq]),
   (['’'], [sq]),
   (['“'], [dq]),
   (['”'], [dq])]

/-- Model of Python `text.replace(key, rep)` with explicit fuel: scan left
to right and replace non-overlapping occurrences of `key`.  Both branches
consume one unit of fuel and at least one character when `key` is
non-empty, as every key of the replacement table is. -/
def replStrGo (key rep : List Char) : Nat → List Char → List Char
  | 0, t => t
  | _ + 1, [] => []
  | fuel + 1, c :: cs =>
    if key.isPrefixOf (c :: cs) then
      rep ++ replStrGo key rep fuel ((c :: cs).drop key.length)
    else c :: replStrGo key rep fuel cs

/-- Model of Python `text.replace(key, rep)` for a non-empty `key`: the
input length is enough fuel to finish the scan. -/
def replStr (key rep t : List Char) : List Char :=
  replStrGo key rep t.length t

/-- Lines 56-58: apply each replacement of the table in order. -/
def applyRepl (t : List Char) : List Char :=
  replacements.foldl (fun acc p => replStr p.1 p.2 acc) t

/-- Line 61: keep characters with code point below 128, replace the rest
with a space. -/
def toAscii (t : List Char) : List Char :=
  t.map (fun c => if c.toNat < 128 then c else ' ')

/-- Model of Python `str.split()` with no separator: split on whitespace
runs, dropping empty pieces. -/
def pySplit (t : List Char) : List (List Char) :=
  (t.splitOnP isPySpace).filter (fun w => !w.isEmpty)

/-- Model of Python `' '.join(ws)`. -/
def joinSp : List (List Char) → List Char
  | [] => []
  | [w] => w
  | w :: x :: ws => w ++ ' ' :: joinSp (x :: ws)

/-- Embedding of `clean_text_for_pdf` (lines 32-66): replacement table,
then the non-ASCII filter, then whitespace collapsing via split and join. -/
def clean_text_for_pdf (t : List Char) : List Char :=
  joinSp (pySplit (toAscii (applyRepl t)))

/-! Spec classifier, `determine_spec_type` (processor.py lines 271-289). -/

/-- The ordered keyword table `spec_labels` (lines 271-281). -/
def spec_labels : List (String × List String) :=
  [("Processor", ["processor", "intel", "amd", "core", "celeron", "xeon"]),
   ("Memory", ["memory", "gb:", "ram", "rdimm", "ddr"]),
   ("Storage", ["storage", "ssd", "hdd", "emmc", "hard drive", "nvme"]),
   ("Display", ["display", "screen", "lcd", "\"", "fhd", "hd", "monitor"]),
   ("Graphics", ["graphics", "gpu", "radeon", "nvidia", "intel® uhd"]),
   ("Power", ["adapter", "battery", "cell", "wh", "expresscharge"]),
   ("Wireless", ["wireless", "wi-fi", "bluetooth", "ax201", "ax211"]),
   ("Operating System", ["windows", "chrome"]),
   ("Warranty", ["warranty", "service", "support"])]

/-- Line 287: `any(keyword in value_lower for keyword in keywords)`. -/
def keywordHit (kws : List String) (value_lower : List Char) : Bool :=
  kws.any (fun kw => listContains kw.toList value_lower)

/-- Embedding of `determine_spec_type` (lines 283-289): lower-case the
value, return the first table category with a keyword hit, else `"Other"`. -/
def determine_spec_type (value : List Char) : String :=
  match spec_labels.find? (fun p => keywordHit p.2 (pyLower value)) with
  | some p => p.1
  | none => "Other"

/-! Table parser, `parse_product_blocks` (processor.py lines 260-336). -/

/-- Raw product record appended by the parser (lines 307-311). -/
structure RawProduct where
  name : List Char
  price : Option (List Char)
  specifications : List (List Char × List Char)
deriving DecidableEq

/-- Loop state of `parse_product_blocks` (lines 263-266). -/
structure ParseState where
  products : List RawProduct
  current_product : Option (List Char)
  current_specs : List (List Char × List Char)
  current_price : Option (List Char)
deriving DecidableEq

/-- Line 302: strip every dollar sign, then every comma, from a price cell. -/
def stripPrice (pc : List Char) : List Char :=
  (pc.filter (fun c => c != '$')).filter (fun c => c != ',')

/-- Line 295: split the line on the pipe character, strip each cell, keep
the non-empty cells. -/
def lineCells (line : List Char) : List (List Char) :=
  ((line.splitOnP (fun c => c == '|')).map pyStrip).filter (fun c => !c.isEmpty)

/-- Line 305: the marker phrase test, `'Base Configuration' in line or
'Base configuration' in line`. -/
def baseConfigMarker (line : List Char) : Bool :=
  listContains "Base Configuration".toList line ||
  listContains "Base configuration".toList line

/-- Lines 306-311 and 328-333: `if current_product and current_specs`,
append the finished block.  Python truthiness of `current_product`
(either `None` or a possibly empty string) is exactly
`current_product.getD [] ≠ []`. -/
def pushCurrent (st : ParseState) : ParseState :=
  if st.current_product.getD [] ≠ [] ∧ st.current_specs ≠ [] then
    { st with products := st.products ++
        [⟨st.current_product.getD [], st.current_price, st.current_specs⟩] }
  else st

/-- Lines 318-325: a `NaN` first cell means the second cell is classified;
otherwise the first two cells are taken verbatim as a label/value pair. -/
def specPair (c0 c1 : List Char) : List Char × List Char :=
  if c0 = "NaN".toList then ((determine_spec_type c1).toList, c1) else (c0, c1)

/-- Lines 299-302: when some cell starts with a dollar sign, overwrite the
running price with that cell stripped of dollar signs and commas. -/
def applyPrice (st : ParseState) (cells : List (List Char)) : ParseState :=
  match cells.find? (fun cell => cell.head? == some '$') with
  | some pc => { st with current_price := some (stripPrice pc) }
  | none => st

/-- Lines 316-325: a specification is appended only when the line has at
least two cells (`len(cells) >= 2`). -/
def appendSpec (st : ParseState) (c0 : List Char) :
    List (List Char) → ParseState
  | [] => st
  | c1 :: _ => { st with current_specs := st.current_specs ++ [specPair c0 c1] }

/-- Lines 299-325 applied to the non-empty cell list of one line: update
the running price, then either start a new block at a marker row or, if a
block is open, append a specification pair. -/
def processCells (st : ParseState) (line : List Char) :
    List (List Char) → ParseState
  | [] => st
  | c0 :: ctail =>
    if c0 ≠ "NaN".toList ∧ baseConfigMarker line = true then
      { pushCurrent (applyPrice st (c0 :: ctail)) with
          current_product := some c0, current_specs := [] }
    else if (applyPrice st (c0 :: ctail)).current_product.getD [] ≠ [] then
      appendSpec (applyPrice st (c0 :: ctail)) c0 ctail
    else applyPrice st (c0 :: ctail)

/-- One iteration of the scan loop (lines 291-325): skip lines with no
pipe and separator-only lines, then process the line's cells. -/
def processLine (st : ParseState) (line : List Char) : ParseState :=
  if '|' ∈ line ∧ ¬(∀ c ∈ line, c = '|' ∨ c = '-') then
    processCells st line (lineCells line)
  else st

/-- Embedding of `parse_product_blocks` (lines 260-336): split the content
into stripped non-empty lines, fold the scan loop over them, and finalize
any still-open block. -/
def parse_product_blocks (content : List Char) : List RawProduct :=
  let lines :=
    ((content.splitOnP (fun c => c == '\n')).map pyStrip).filter
      (fun l => !l.isEmpty)
  (pushCurrent (lines.foldl processLine ⟨[], none, [], none⟩)).products

/-! Normalizer fallback, `process_with_gpt` (processor.py lines 68-145). -/

/-- Entry of `main_specs` in the structured record. -/
structure SpecEntry where
  label : List Char
  value : List Char
deriving DecidableEq

/-- Entry of `upgrade_options` in the structured record. -/
structure UpgradeEntry where
  label : List Char
  value : List Char
  price : Option (List Char)
deriving DecidableEq

/-- Structured record produced by the normalizer or the local fallback. -/
structure StructuredData where
  title : List Char
  price : Option (List Char)
  main_specs : List SpecEntry
  upgrade_options : List UpgradeEntry
deriving DecidableEq

/-- Lines 136-145: the deterministic fallback built when the GPT call or
its response parsing raises.  The parser emits every specification as a
two-element list, so the guard `len(spec) >= 2` keeps every pair.
`product_data.get('price', '')` returns the stored price value because the
parser always stores the key, so the fallback price is the raw price. -/
def gptFallback (p : RawProduct) : StructuredData :=
  { title := p.name
    price := p.price
    main_specs := p.specifications.map (fun s => ⟨s.1, s.2⟩)
    upgrade_options := [] }

/-- Embedding of `process_with_gpt` (lines 68-145).  The external OpenAI
call and the JSON extraction of its response are modelled as an oracle
argument: `some d` is a run in which the call succeeded and parsing the
response produced `d`; `none` is a run in which any exception was raised
(lines 133-134), taking the fallback branch. -/
def process_with_gpt : Option StructuredData → RawProduct → StructuredData
  | some d, _ => d
  | none, p => gptFallback p

/-! Row-height computation of `SpecificationPDF.create_specification_table`
(processor.py lines 155-221). -/

/-- Model of Python `int()` applied to a nonnegative-or-negative rational:
truncation toward zero. -/
def pyTrunc (q : ℚ) : ℤ := if 0 ≤ q then ⌊q⌋ else -⌊-q⌋

/-- Line 192: `len(str(value).split('\n'))`, the number of segments when
the value is split on explicit line breaks. -/
def value_lines (v : List Char) : ℕ :=
  (v.splitOnP (fun c => c == '\n')).length

/-- Line 196: `max(1, int(text_width / value_width) + 1)`.  The rendered
text width and the value-column width are external canvas metrics, taken
as rational arguments. -/
def wrapped_lines (text_width value_width : ℚ) : ℤ :=
  max 1 (pyTrunc (text_width / value_width) + 1)

/-- Line 197: `max(value_lines, wrapped_lines)`. -/
def total_lines (v : List Char) (text_width value_width : ℚ) : ℤ :=
  max (value_lines v : ℤ) (wrapped_lines text_width value_width)

/-- Lines 166 and 198: `row_height = 8` and
`current_row_height = row_height * total_lines`. -/
def current_row_height (v : List Char) (text_width value_width : ℚ) : ℤ :=
  8 * total_lines v text_width value_width

/-! Helper lemmas. -/

/-- Splitting a list at a predicate yields one more piece than there are
matching elements. -/
lemma length_splitOnP {α : Type} (p : α → Bool) (l : List α) :
    (l.splitOnP p).length = l.countP p + 1 := by
  induction l with
  | nil => simp
  | cons x xs ih =>
    rw [List.splitOnP_cons]
    by_cases h : p x
    · simp [h, List.countP_cons, ih]
    · obtain ⟨w, ws, hw⟩ :=
        List.exists_cons_of_ne_nil (List.splitOnP_ne_nil p xs)
      rw [hw] at ih
      simp [h, hw, List.countP_cons, Nat.succ_eq_add_one] at ih ⊢
      omega

/-- The number of explicit-line-break segments is the break count plus 1. -/
lemma value_lines_eq (v : List Char) :
    value_lines v = v.countP (fun c => c == '\n') + 1 :=
  length_splitOnP _ v

/-! Claim theorems: classifier. -/

/-- C2: for every input string the classifier returns one of the nine
fixed categories or `"Other"`, and the result is never empty. -/
theorem determine_spec_type_total (v : List Char) :
    determine_spec_type v ∈ ["Processor", "Memory", "Storage", "Display",
      "Graphics", "Power", "Wireless", "Operating System", "Warranty",
      "Other"] ∧ determine_spec_type v ≠ "" := by
  have key : determine_spec_type v ∈ ["Processor", "Memory", "Storage",
      "Display", "Graphics", "Power", "Wireless", "Operating System",
      "Warranty", "Other"] := by
    unfold determine_spec_type
    cases h : spec_labels.find? (fun p => keywordHit p.2 (pyLower v)) with
    | none => simp
    | some p =>
      have hp : p ∈ spec_labels := List.mem_of_find?_eq_some h
      have h2 : p.1 ∈ spec_labels.map Prod.fst :=
        List.mem_map_of_mem Prod.fst hp
      have h3 : ∀ x ∈ spec_labels.map Prod.fst,
          x ∈ ["Processor", "Memory", "Storage", "Display", "Graphics",
            "Power", "Wireless", "Operating System", "Warranty",
            "Other"] := by decide
      exact h3 _ h2
  have h4 : ∀ x ∈ ["Processor", "Memory", "Storage", "Display", "Graphics",
      "Power", "Wireless", "Operating System", "Warranty", "Other"],
      x ≠ "" := by decide
  exact ⟨key, h4 _ key⟩

/-- C3: when the lower-cased value contains both a Memory keyword and a
Warranty keyword, the classifier returns the first matching category in
table order: `"Processor"` when a Processor keyword also matches (the
earliest tested set), `"Memory"` otherwise, and never `"Warranty"` — the
hypothesis keyword lists are the Memory and Warranty rows of
`spec_labels`. -/
theorem determine_spec_type_tie_break (v : List Char)
    (hmem : keywordHit ["memory", "gb:", "ram", "rdimm", "ddr"]
      (pyLower v) = true)
    (hwar : keywordHit ["warranty", "service", "support"]
      (pyLower v) = true) :
    (keywordHit ["processor", "intel", "amd", "core", "celeron", "xeon"]
        (pyLower v) = true → determine_spec_type v = "Processor") ∧
    (keywordHit ["processor", "intel", "amd", "core", "celeron", "xeon"]
        (pyLower v) = false → determine_spec_type v = "Memory") ∧
    determine_spec_type v ≠ "Warranty" := by
  have hwar2 := hwar
  cases hp : keywordHit ["processor", "intel", "amd", "core", "celeron",
      "xeon"] (pyLower v) with
  | true =>
    have : determine_spec_type v = "Processor" := by
      unfold determine_spec_type spec_labels
      rw [List.find?_cons_of_pos _ (by simpa using hp)]
    simp [this]
  | false =>
    have : determine_spec_type v = "Memory" := by
      unfold determine_spec_type spec_labels
      rw [List.find?_cons_of_neg _ (by simpa using hp),
        List.find?_cons_of_pos _ (by simpa using hmem)]
    simp [this]

/-- Witness for the tie-break theorem at a concrete value containing both
a Memory keyword and a Warranty keyword. -/
theorem determine_spec_type_tie_break_witness :
    (keywordHit ["processor", "intel", "amd", "core", "celeron", "xeon"]
        (pyLower "8GB RAM with 1-year warranty".toList) = false →
      determine_spec_type "8GB RAM with 1-year warranty".toList =
        "Memory") ∧
    determine_spec_type "8GB RAM with 1-year warranty".toList ≠
      "Warranty" := by
  obtain ⟨-, h2, h3⟩ := determine_spec_type_tie_break
    "8GB RAM with 1-year warranty".toList (by decide) (by decide)
  exact ⟨h2, h3⟩

/-! Claim theorems: normalizer fallback. -/

/-- C5: on a failed normalizer call the pipeline returns the deterministic
fallback: title is the raw name, price the raw running price, `main_specs`
has one entry per raw pair in order with the category verbatim as label,
`upgrade_options` is empty; with two raw pairs `main_specs` has exactly
two entries. -/
theorem process_with_gpt_fallback (p : RawProduct) :
    (process_with_gpt none p).title = p.name ∧
    (process_with_gpt none p).price = p.price ∧
    (process_with_gpt none p).main_specs =
      p.specifications.map (fun s => ⟨s.1, s.2⟩) ∧
    (process_with_gpt none p).upgrade_options = [] ∧
    (p.specifications.length = 2 →
      (process_with_gpt none p).main_specs.length = 2) := by
  refine ⟨rfl, rfl, rfl, rfl, fun h => ?_⟩
  simp [process_with_gpt, gptFallback, h]

/-- Witness for the fallback theorem at a product with two raw pairs. -/
theorem process_with_gpt_fallback_witness :
    (process_with_gpt none ⟨"Laptop".toList, some "999".toList,
      [("Memory".toList, "8GB".toList),
       ("Storage".toList, "256GB SSD".toList)]⟩).main_specs.length = 2 :=
  (process_with_gpt_fallback ⟨"Laptop".toList, some "999".toList,
      [("Memory".toList, "8GB".toList),
       ("Storage".toList, "256GB SSD".toList)]⟩).2.2.2.2 (by decide)

/-! Claim theorems: row-height computation. -/

/-- C6: for nonnegative text width and positive column width, the row
height is the base unit 8 times the maximum of the explicit segment count
and the wrap estimate `floor(text_width / value_width) + 1` clamped to at
least 1; a value with one explicit line break whose wrap estimate is 3
gets `total_lines = 3`. -/
theorem row_height_formula (v : List Char) (tw vw : ℚ)
    (htw : 0 ≤ tw) (hvw : 0 < vw) :
    current_row_height v tw vw =
      8 * max ((value_lines v : ℤ)) (max 1 (⌊tw / vw⌋ + 1)) ∧
    (v.countP (fun c => c == '\n') = 1 → wrapped_lines tw vw = 3 →
      total_lines v tw vw = 3) := by
  have hq : 0 ≤ tw / vw := div_nonneg htw hvw.le
  have htr : pyTrunc (tw / vw) = ⌊tw / vw⌋ := if_pos hq
  constructor
  · simp only [current_row_height, total_lines, wrapped_lines, htr]
  · intro h1 h3
    have hv : (value_lines v : ℤ) = 2 := by
      rw [value_lines_eq, h1]; norm_num
    rw [total_lines, hv, h3]
    norm_num

/-- Witness for the row-height formula at concrete widths 21 and 10 and a
value with one explicit line break. -/
theorem row_height_formula_witness :
    current_row_height "abc\ndef".toList 21 10 =
      8 * max ((value_lines "abc\ndef".toList : ℤ))
        (max 1 (⌊(21 : ℚ) / 10⌋ + 1)) ∧
    total_lines "abc\ndef".toList 21 10 = 3 := by
  obtain ⟨h1, h2⟩ := row_height_formula "abc\ndef".toList 21 10
    (by norm_num) (by norm_num)
  refine ⟨h1, h2 (by decide) ?_⟩
  unfold wrapped_lines pyTrunc
  norm_num

/-- C7: the computed row height is a positive integer multiple of the base
unit 8, and is monotonically non-decreasing in the number of explicit
line breaks in the value. -/
theorem row_height_multiple_monotone (v : List Char) (tw vw : ℚ) :
    (∃ k : ℤ, 1 ≤ k ∧ current_row_height v tw vw = 8 * k) ∧
    ∀ v2 : List Char,
      v.countP (fun c => c == '\n') ≤ v2.countP (fun c => c == '\n') →
      current_row_height v tw vw ≤ current_row_height v2 tw vw := by
  constructor
  · refine ⟨total_lines v tw vw, ?_, rfl⟩
    exact le_trans (le_max_left 1 _) (le_max_right _ _)
  · intro v2 h
    have hval : ((value_lines v : ℤ)) ≤ (value_lines v2 : ℤ) := by
      rw [value_lines_eq, value_lines_eq]
      exact_mod_cast Nat.add_le_add_right h 1
    have hmax : total_lines v tw vw ≤ total_lines v2 tw vw :=
      max_le_max hval le_rfl
    exact mul_le_mul_of_nonneg_left hmax (by norm_num)

/-- Witness for the multiple-and-monotone theorem at concrete values. -/
theorem row_height_multiple_monotone_witness :
    (∃ k : ℤ, 1 ≤ k ∧ current_row_height "a".toList 21 10 = 8 * k) ∧
    current_row_height "a".toList 21 10 ≤
      current_row_height "a\nb\nc".toList 21 10 := by
  obtain ⟨h1, h2⟩ := row_height_multiple_monotone "a".toList 21 10
  exact ⟨h1, h2 "a\nb\nc".toList (by decide)⟩

/-! Claim theorems: table parser. -/

/-- Emission invariant: a product record with a non-empty name and at
least one specification pair. -/
def goodProduct (p : RawProduct) : Prop :=
  p.name ≠ [] ∧ p.specifications ≠ []

/-- Finalizing a block preserves the emission invariant: the guard only
pushes a record with a non-empty name and non-empty specifications. -/
lemma pushCurrent_products_good (st : ParseState)
    (h : ∀ p ∈ st.products, goodProduct p) :
    ∀ p ∈ (pushCurrent st).products, goodProduct p := by
  unfold pushCurrent
  split
  · next hc =>
    intro p hp
    rcases List.mem_append.1 hp with hp | hp
    · exact h p hp
    · rcases List.mem_singleton.1 hp with rfl
      exact ⟨hc.1, hc.2⟩
  · exact h

/-- Updating the running price does not touch the emitted products, the
open block name, or its specification list. -/
lemma applyPrice_fields (st : ParseState) (cells : List (List Char)) :
    (applyPrice st cells).products = st.products ∧
    (applyPrice st cells).current_product = st.current_product ∧
    (applyPrice st cells).current_specs = st.current_specs := by
  unfold applyPrice
  cases cells.find? (fun cell => cell.head? == some '$') <;>
    exact ⟨rfl, rfl, rfl⟩

/-- Appending a specification pair does not touch the emitted products. -/
lemma appendSpec_products (st : ParseState) (c0 : List Char)
    (ctail : List (List Char)) :
    (appendSpec st c0 ctail).products = st.products := by
  cases ctail <;> rfl

/-- Processing one cell list preserves the emission invariant. -/
lemma processCells_products_good (st : ParseState) (line : List Char)
    (cells : List (List Char)) (h : ∀ p ∈ st.products, goodProduct p) :
    ∀ p ∈ (processCells st line cells).products, goodProduct p := by
  cases cells with
  | nil => exact h
  | cons c0 ctail =>
    have hap : ∀ q ∈ (applyPrice st (c0 :: ctail)).products, goodProduct q := by
      rw [(applyPrice_fields st (c0 :: ctail)).1]; exact h
    simp only [processCells]
    split
    · exact pushCurrent_products_good _ hap
    · split
      · rw [appendSpec_products]
        intro p hp
        exact hap p hp
      · exact hap

/-- One scan step preserves the emission invariant. -/
lemma processLine_products_good (st : ParseState) (line : List Char)
    (h : ∀ p ∈ st.products, goodProduct p) :
    ∀ p ∈ (processLine st line).products, goodProduct p := by
  unfold processLine
  split
  · exact processCells_products_good st line (lineCells line) h
  · exact h

/-- The whole scan preserves the emission invariant. -/
lemma foldl_processLine_good (lines : List (List Char)) :
    ∀ (st : ParseState), (∀ p ∈ st.products, goodProduct p) →
    ∀ p ∈ (lines.foldl processLine st).products, goodProduct p := by
  induction lines with
  | nil => intro st h; simpa using h
  | cons l ls ih =>
    intro st h
    exact ih _ (processLine_products_good _ _ h)

/-- C1: every emitted product block has a non-empty name and at least one
specification pair; and a marker row immediately followed by another
marker row emits nothing for the first marker — only the second marker's
block, completed by a later specification row, appears. -/
theorem parse_product_blocks_invariant :
    (∀ (content : List Char) (p : RawProduct),
      p ∈ parse_product_blocks content →
      p.name ≠ [] ∧ p.specifications ≠ []) ∧
    parse_product_blocks ("| Alpha Base Configuration |" ++ "\n" ++
        "| Beta Base Configuration |" ++ "\n" ++
        "| NaN | 16GB RAM |").toList =
      [⟨"Beta Base Configuration".toList, none,
        [("Memory".toList, "16GB RAM".toList)]⟩] := by
  constructor
  · intro content p hp
    exact pushCurrent_products_good _
      (foldl_processLine_good _ _ (by simp)) p hp
  · decide

/-- Witness for the emission invariant at a concrete parsed input. -/
theorem parse_product_blocks_invariant_witness :
    (⟨"Beta Base Configuration".toList, none,
        [("Memory".toList, "16GB RAM".toList)]⟩ : RawProduct).name ≠ [] ∧
    (⟨"Beta Base Configuration".toList, none,
        [("Memory".toList, "16GB RAM".toList)]⟩ :
      RawProduct).specifications ≠ [] :=
  parse_product_blocks_invariant.1
    ("| Alpha Base Configuration |" ++ "\n" ++
      "| Beta Base Configuration |" ++ "\n" ++
      "| NaN | 16GB RAM |").toList
    ⟨"Beta Base Configuration".toList, none,
      [("Memory".toList, "16GB RAM".toList)]⟩ (by decide)

/-- C4 counterexample: the Scenario A input does not parse to a single
product with exactly one specification pair — the claimed product record
is not the parse result. -/
theorem scenarioA_not_single_spec :
    parse_product_blocks ("| Model X Base Configuration | |" ++ "\n" ++
        "| NaN | Intel Core i7 processor |" ++ "\n" ++
        "| NaN | $999 |").toList ≠
      [⟨"Model X Base Configuration".toList, some "999".toList,
        [("Processor".toList, "Intel Core i7 processor".toList)]⟩] := by
  decide

/-- C4 amended: the Scenario A input parses to one product named
`"Model X Base Configuration"` with price `"999"`, whose specifications
contain exactly two pairs — the processor row classified `"Processor"`
and the price row also recorded as the pair `("Other", "$999")`. -/
theorem scenarioA_parse_result :
    parse_product_blocks ("| Model X Base Configuration | |" ++ "\n" ++
        "| NaN | Intel Core i7 processor |" ++ "\n" ++
        "| NaN | $999 |").toList =
      [⟨"Model X Base Configuration".toList, some "999".toList,
        [("Processor".toList, "Intel Core i7 processor".toList),
         ("Other".toList, "$999".toList)]⟩] := by
  decide

/-- C10: the running-price update from a line's cells happens before the
product-start-marker handling of the same line; hence when a marker row
carries a dollar cell, the block finalized at that marker — the previous
product — is emitted with the price parsed from the new marker row. -/
theorem price_updated_before_marker (st : ParseState) (line : List Char)
    (c0 : List Char) (ctail : List (List Char)) (pc nm : List Char)
    (hline : '|' ∈ line ∧ ¬(∀ c ∈ line, c = '|' ∨ c = '-'))
    (hcells : lineCells line = c0 :: ctail)
    (hfind : (c0 :: ctail).find? (fun cell => cell.head? == some '$') =
      some pc)
    (hmark : c0 ≠ "NaN".toList ∧ baseConfigMarker line = true)
    (hcp : st.current_product = some nm) (hnm : nm ≠ [])
    (hsp : st.current_specs ≠ []) :
    (processLine st line).products =
      st.products ++ [⟨nm, some (stripPrice pc), st.current_specs⟩] ∧
    (processLine st line).current_price = some (stripPrice pc) := by
  have hap : applyPrice st (c0 :: ctail) =
      { st with current_price := some (stripPrice pc) } := by
    unfold applyPrice; rw [hfind]
  have hpush : pushCurrent { st with current_price := some (stripPrice pc) } =
      { st with
          products := st.products ++
            [⟨nm, some (stripPrice pc), st.current_specs⟩],
          current_price := some (stripPrice pc) } := by
    unfold pushCurrent
    rw [if_pos]
    · simp [hcp]
    · exact ⟨by simp [hcp, hnm], hsp⟩
  unfold processLine
  rw [if_pos hline, hcells]
  simp only [processCells]
  rw [if_pos hmark, hap, hpush]
  exact ⟨rfl, rfl⟩

/-- Witness for the price-before-marker theorem: an open product with one
specification gets finalized by a marker row carrying the cell
`"$1,299"`, and is emitted with that row's price `"1299"`, not with the
running price `"500"`. -/
theorem price_updated_before_marker_witness :
    (processLine
        ⟨[], some "Old Product".toList,
          [("Memory".toList, "8GB".toList)], some "500".toList⟩
        "| New Base Configuration | $1,299 |".toList).products =
      [⟨"Old Product".toList, some "1299".toList,
        [("Memory".toList, "8GB".toList)]⟩] ∧
    (processLine
        ⟨[], some "Old Product".toList,
          [("Memory".toList, "8GB".toList)], some "500".toList⟩
        "| New Base Configuration | $1,299 |".toList).current_price =
      some "1299".toList :=
  price_updated_before_marker
    ⟨[], some "Old Product".toList, [("Memory".toList, "8GB".toList)],
      some "500".toList⟩
    "| New Base Configuration | $1,299 |".toList
    "New Base Configuration".toList ["$1,299".toList] "$1,299".toList
    "Old Product".toList (by decide) (by decide) (by decide) (by decide)
    (by decide) (by decide) (by decide)

/-! Claim theorems: text sanitization. -/

/-- Replacing a non-empty key by itself changes nothing. -/
lemma replStrGo_key_self (key : List Char) (hk : key ≠ []) :
    ∀ (fuel : Nat) (t : List Char), t.length ≤ fuel →
      replStrGo key key fuel t = t := by
  intro fuel
  induction fuel with
  | zero => intro t ht; rfl
  | succ n ih =>
    intro t ht
    cases t with
    | nil => rfl
    | cons c cs =>
      simp only [replStrGo]
      by_cases hp : key.isPrefixOf (c :: cs)
      · rw [if_pos hp]
        have hpre : key <+: c :: cs := List.isPrefixOf_iff_prefix.1 hp
        have happ : key ++ (c :: cs).drop key.length = c :: cs :=
          List.prefix_iff_eq_append.1 hpre
        have hk1 : 1 ≤ key.length := by
          cases key with
          | nil => exact absurd rfl hk
          | cons a l => simp
        have hlen : ((c :: cs).drop key.length).length ≤ n := by
          rw [List.length_drop]
          simp only [List.length_cons] at ht ⊢
          omega
        rw [ih _ hlen, happ]
      · rw [if_neg hp]
        have hcs : cs.length ≤ n := by
          simp only [List.length_cons] at ht
          omega
        rw [ih cs hcs]

/-- Replacement is the identity when some character of the key does not
occur in the text. -/
lemma replStrGo_of_not_mem (key rep : List Char) (ch : Char)
    (hch : ch ∈ key) :
    ∀ (fuel : Nat) (t : List Char), ch ∉ t →
      replStrGo key rep fuel t = t := by
  intro fuel
  induction fuel with
  | zero => intro t ht; rfl
  | succ n ih =>
    intro t ht
    cases t with
    | nil => rfl
    | cons c cs =>
      simp only [replStrGo]
      have hp : ¬key.isPrefixOf (c :: cs) := by
        intro hp
        exact ht ((List.isPrefixOf_iff_prefix.1 hp).subset hch)
      rw [if_neg hp]
      have hcs : ch ∉ cs := fun h => ht (List.mem_cons_of_mem c h)
      rw [ih cs hcs]

/-- Restatement of `replStrGo_key_self` at the fuel `replStr` uses. -/
lemma replStr_key_self (key : List Char) (hk : key ≠ []) (t : List Char) :
    replStr key key t = t :=
  replStrGo_key_self key hk t.length t le_rfl

/-- Restatement of `replStrGo_of_not_mem` at the fuel `replStr` uses. -/
lemma replStr_of_not_mem (key rep : List Char) (ch : Char) (hch : ch ∈ key)
    (t : List Char) (hc : ch ∉ t) : replStr key rep t = t :=
  replStrGo_of_not_mem key rep ch hch t.length t hc

/-- Replacement with a single key character above the ASCII range is the
identity on pure-ASCII text. -/
lemma replStr_single_high (k : Char) (rep t : List Char)
    (hk : 128 ≤ k.toNat) (ht : ∀ c ∈ t, c.toNat < 128) :
    replStr [k] rep t = t := by
  refine replStr_of_not_mem [k] rep k (List.mem_singleton.2 rfl) t ?_
  intro hm
  have := ht k hm
  omega

/-- Every entry of the replacement table is the identity on pure-ASCII
text without a line break: ten keys are single characters above the ASCII
range, the double-quotation entry replaces the character by itself, and
the triple-quote-artifact key contains a line break. -/
lemma replacements_entry_eq_self (p : List Char × List Char)
    (hp : p ∈ replacements) (t : List Char)
    (ht : ∀ c ∈ t, c.toNat < 128) (hn : '\n' ∉ t) :
    replStr p.1 p.2 t = t := by
  simp only [replacements, List.mem_cons, List.not_mem_nil, or_false] at hp
  rcases hp with rfl | rfl | rfl | rfl | rfl | rfl | rfl | rfl | rfl |
    rfl | rfl | rfl
  · exact replStr_single_high _ _ _ (by decide) ht
  · exact replStr_single_high _ _ _ (by decide) ht
  · exact replStr_single_high _ _ _ (by decide) ht
  · exact replStr_single_high _ _ _ (by decide) ht
  · exact replStr_key_self _ (by decide) t
  · exact replStr_of_not_mem _ _ '\n' (by decide) t hn
  · exact replStr_single_high _ _ _ (by decide) ht
  · exact replStr_single_high _ _ _ (by decide) ht
  · exact replStr_single_high _ _ _ (by decide) ht
  · exact replStr_single_high _ _ _ (by decide) ht
  · exact replStr_single_high _ _ _ (by decide) ht
  · exact replStr_single_high _ _ _ (by decide) ht

/-- Folding replacement steps that each fix the text fixes the text. -/
lemma foldl_replStr_eq_self (ps : List (List Char × List Char))
    (t : List Char) (h : ∀ p ∈ ps, replStr p.1 p.2 t = t) :
    ps.foldl (fun acc p => replStr p.1 p.2 acc) t = t := by
  induction ps with
  | nil => rfl
  | cons p ps ih =>
    rw [List.foldl_cons, h p (List.mem_cons_self p ps)]
    exact ih (fun q hq => h q (List.mem_cons_of_mem p hq))

/-- The replacement table is the identity on pure-ASCII text containing
no line break. -/
lemma applyRepl_eq_self (t : List Char) (ht : ∀ c ∈ t, c.toNat < 128)
    (hn : '\n' ∉ t) : applyRepl t = t :=
  foldl_replStr_eq_self replacements t
    (fun p hp => replacements_entry_eq_self p hp t ht hn)

/-- The non-ASCII filter is the identity on pure-ASCII text. -/
lemma toAscii_eq_self (t : List Char) (ht : ∀ c ∈ t, c.toNat < 128) :
    toAscii t = t := by
  induction t with
  | nil => rfl
  | cons c cs ih =>
    rw [toAscii, List.map_cons, if_pos (ht c (List.mem_cons_self c cs))]
    rw [show (List.map (fun c => if c.toNat < 128 then c else ' ') cs) =
      toAscii cs from rfl]
    rw [ih (fun d hd => ht d (List.mem_cons_of_mem c hd))]

/-- Every character the non-ASCII filter outputs is below 128. -/
lemma toAscii_lt (t : List Char) : ∀ c ∈ toAscii t, c.toNat < 128 := by
  intro c hc
  rcases List.mem_map.1 hc with ⟨d, hd, rfl⟩
  by_cases h : d.toNat < 128
  · simp [h]
  · simp only [if_neg h]
    decide

/-- Every character of a chunk produced by `splitOnP` fails the predicate
and occurs in the original list. -/
lemma splitOnP_chunk {α : Type} (p : α → Bool) :
    ∀ (t : List α), ∀ w ∈ t.splitOnP p, ∀ c ∈ w, p c = false ∧ c ∈ t := by
  intro t
  induction t with
  | nil =>
    intro w hw c hc
    rw [List.splitOnP_nil] at hw
    rcases List.mem_singleton.1 hw with rfl
    simp at hc
  | cons x xs ih =>
    intro w hw c hc
    rw [List.splitOnP_cons] at hw
    by_cases h : p x
    · rw [if_pos h] at hw
      rcases List.mem_cons.1 hw with rfl | hw
      · simp at hc
      · obtain ⟨hpc, hcm⟩ := ih w hw c hc
        exact ⟨hpc, List.mem_cons_of_mem _ hcm⟩
    · rw [if_neg h] at hw
      obtain ⟨h0, tl0, heq⟩ :=
        List.exists_cons_of_ne_nil (List.splitOnP_ne_nil p xs)
      rw [heq, List.modifyHead_cons] at hw
      have hh0 : h0 ∈ List.splitOnP p xs := by
        rw [heq]; exact List.mem_cons_self h0 tl0
      rcases List.mem_cons.1 hw with rfl | hw
      · rcases List.mem_cons.1 hc with rfl | hc
        · exact ⟨Bool.eq_false_iff.2 h, List.mem_cons_self _ _⟩
        · obtain ⟨hpc, hcm⟩ := ih h0 hh0 c hc
          exact ⟨hpc, List.mem_cons_of_mem _ hcm⟩
      · have hwm : w ∈ List.splitOnP p xs := by
          rw [heq]; exact List.mem_cons_of_mem h0 hw
        obtain ⟨hpc, hcm⟩ := ih w hwm c hc
        exact ⟨hpc, List.mem_cons_of_mem _ hcm⟩

/-- Every word of a whitespace split is non-empty, whitespace-free and
drawn from the input. -/
lemma pySplit_words (t : List Char) :
    ∀ w ∈ pySplit t, w ≠ [] ∧ ∀ c ∈ w, isPySpace c = false ∧ c ∈ t := by
  intro w hw
  obtain ⟨hw1, hw2⟩ := List.mem_filter.1 hw
  refine ⟨?_, fun c hc => splitOnP_chunk _ t w hw1 c hc⟩
  cases w with
  | nil => simp at hw2
  | cons a l => exact List.cons_ne_nil a l

/-- Every character of a space-joined word list is a space or comes from
one of the words. -/
lemma joinSp_mem :
    ∀ (ws : List (List Char)) (c : Char), c ∈ joinSp ws →
      c = ' ' ∨ ∃ w ∈ ws, c ∈ w := by
  intro ws
  induction ws with
  | nil => intro c hc; simp [joinSp] at hc
  | cons w ws ih =>
    cases ws with
    | nil =>
      intro c hc
      simp only [joinSp] at hc
      exact Or.inr ⟨w, List.mem_cons_self _ _, hc⟩
    | cons x ws2 =>
      intro c hc
      simp only [joinSp, List.mem_append, List.mem_cons] at hc
      rcases hc with hc | hc | hc
      · exact Or.inr ⟨w, List.mem_cons_self _ _, hc⟩
      · exact Or.inl hc
      · rcases ih c hc with hc | ⟨w2, hw2, hcw⟩
        · exact Or.inl hc
        · exact Or.inr ⟨w2, List.mem_cons_of_mem _ hw2, hcw⟩

/-- Splitting the space-join of non-empty, whitespace-free words recovers
the words. -/
lemma pySplit_joinSp (ws : List (List Char))
    (h : ∀ w ∈ ws, w ≠ [] ∧ ∀ c ∈ w, isPySpace c = false) :
    pySplit (joinSp ws) = ws := by
  induction ws with
  | nil => rfl
  | cons w ws ih =>
    obtain ⟨hne, hw⟩ := h w (List.mem_cons_self w ws)
    have hnosp : ∀ x ∈ w, ¬isPySpace x := by
      intro x hx
      rw [hw x hx]
      exact Bool.false_ne_true
    cases ws with
    | nil =>
      show pySplit w = [w]
      unfold pySplit
      rw [List.splitOnP_eq_single _ _ hnosp]
      rw [List.filter_cons_of_pos]
      · rfl
      · cases w with
        | nil => exact absurd rfl hne
        | cons a l => rfl
    | cons x ws2 =>
      have hrest := ih (fun u hu => h u (List.mem_cons_of_mem w hu))
      show pySplit (w ++ ' ' :: joinSp (x :: ws2)) = w :: x :: ws2
      unfold pySplit
      rw [List.splitOnP_first _ _ hnosp ' ' (by decide) (joinSp (x :: ws2))]
      rw [List.filter_cons_of_pos]
      · rw [show (List.splitOnP isPySpace (joinSp (x :: ws2))).filter
            (fun w => !w.isEmpty) = pySplit (joinSp (x :: ws2)) from rfl]
        rw [hrest]
      · cases w with
        | nil => exact absurd rfl hne
        | cons a l => rfl

/-- Every character of a sanitized string is below code point 128. -/
lemma clean_chars_lt (t : List Char) :
    ∀ c ∈ clean_text_for_pdf t, c.toNat < 128 := by
  intro c hc
  unfold clean_text_for_pdf at hc
  rcases joinSp_mem _ c hc with rfl | ⟨w, hw, hcw⟩
  · decide
  · exact toAscii_lt _ c ((pySplit_words _ w hw).2 c hcw).2

/-- A sanitized string contains no line break: its characters are either
the joining space or word characters, which are not whitespace. -/
lemma clean_no_newline (t : List Char) : '\n' ∉ clean_text_for_pdf t := by
  intro h
  unfold clean_text_for_pdf at h
  rcases joinSp_mem _ _ h with h | ⟨w, hw, hcw⟩
  · exact absurd h (by decide)
  · have hsp := ((pySplit_words _ w hw).2 _ hcw).1
    exact absurd hsp (by decide)

/-- C9: text sanitization yields pure ASCII — every character of the
output has code point below 128 — and the concrete input
`"a™  bÿ"` shows the typographic substitution, the space
replacement of remaining non-ASCII characters, and the whitespace
collapse. -/
theorem clean_text_ascii :
    (∀ (t : List Char), ∀ c ∈ clean_text_for_pdf t, c.toNat < 128) ∧
    clean_text_for_pdf "a™  bÿ".toList = "a(TM) b".toList := by
  exact ⟨clean_chars_lt, by decide⟩

/-- Witness for the pure-ASCII theorem at a concrete input character. -/
theorem clean_text_ascii_witness : ('a').toNat < 128 :=
  clean_text_ascii.1 "a".toList 'a' (by decide)

/-- C8: text sanitization is idempotent — cleaning twice equals cleaning
once. -/
theorem clean_text_idempotent (t : List Char) :
    clean_text_for_pdf (clean_text_for_pdf t) = clean_text_for_pdf t := by
  have hlt : ∀ c ∈ clean_text_for_pdf t, c.toNat < 128 := clean_chars_lt t
  have hnl : '\n' ∉ clean_text_for_pdf t := clean_no_newline t
  have hwords := pySplit_words (toAscii (applyRepl t))
  conv_lhs => rw [clean_text_for_pdf]
  rw [applyRepl_eq_self _ hlt hnl, toAscii_eq_self _ hlt]
  show joinSp (pySplit (joinSp (pySplit (toAscii (applyRepl t))))) = _
  rw [pySplit_joinSp _ (fun w hw =>
    ⟨(hwords w hw).1, fun c hc => ((hwords w hw).2 c hc).1⟩)]
  rfl

end ConfigPDF
